import Mathlib

/-!
# Verification of the demy keyframe timeline core (`src/lib.rs`)

Shallow embedding of the `Timeline` / `Track` / `Node` data model of
`src/lib.rs`. Conventions of the embedding:

* `u32` times are modelled as `Nat` (no arithmetic in the source can
  overflow a `u32`: times are only compared, and subtraction happens
  after the cast to `f64`);
* `f64` values are modelled as `ℚ` in the data-model operations, which
  never branch on a value; every concrete computation the claims
  mention (halving, linear blends of small integers) is exact in IEEE
  double precision, so the rational model agrees with the source on
  those inputs. Where non-finiteness is observable — serialization —
  the value model is refined to `F64` (finite rational, NaN, ±∞);
* Rust panics (out-of-bounds `Vec` indexing, e.g. `self.nodes[0]` on an
  empty track) are modelled by an `Option` result, `none` meaning the
  call panics;
* `serde_json` persistence is modelled at the level of the JSON
  document tree (`Json` below): `serde_json::to_string`/`from_str`
  print and re-parse that tree exactly, with non-finite doubles printed
  as `null` (which then fails to deserialize as `f64`);
* raw pointers of the C API are modelled as `Option` handles, `none`
  being the null pointer; dereferencing a null handle is the `fault`
  outcome of `CResult`.
-/

namespace Demy

/-- `enum InterpType { None = 0, Linear = 1 }` from `src/lib.rs`. -/
inductive InterpType where
  | none
  | linear
deriving DecidableEq, Repr

/-- `struct Node { time: u32, value: f64, interp: InterpType }` from `src/lib.rs`. -/
structure Node where
  time : Nat
  value : ℚ
  interp : InterpType
deriving DecidableEq, Repr

/-- `Node::new` from `src/lib.rs`. -/
def Node.new (time : Nat) (value : ℚ) (interp : InterpType) : Node :=
  { time := time, value := value, interp := interp }

/-- `pub fn interp_none(from, to, t) -> f64 { from.get_value() }` from `src/lib.rs`. -/
def interp_none (a _b : Node) (_t : ℚ) : ℚ := a.value

/-- `pub fn interp_linear(from, to, t)` from `src/lib.rs`:
`from.get_value() * (1 - t) + (t * to.get_value())`. -/
def interp_linear (a b : Node) (t : ℚ) : ℚ :=
  a.value * (1 - t) + (t * b.value)

/-- `InterpType::to_func` from `src/lib.rs`. -/
def InterpType.to_func : InterpType → (Node → Node → ℚ → ℚ)
  | .none => interp_none
  | .linear => interp_linear

/-- `struct Track { nodes: Vec<Node>, name: String }` from `src/lib.rs`. -/
structure Track where
  nodes : List Node
  name : String
deriving DecidableEq, Repr

/-- `Track::internal_add_node` from `src/lib.rs`: push when `index >= len`,
otherwise `Vec::insert(index, node)`. -/
def internal_add_node (index : Nat) (node : Node) (nodes : List Node) : List Node :=
  if nodes.length ≤ index then nodes ++ [node]
  else nodes.take index ++ node :: nodes.drop index

/-- `Track::new` from `src/lib.rs`: empty vector, then
`internal_add_node(0, Node::new(0, 0.0, InterpType::None))`. -/
def Track.new (name : String) : Track :=
  { nodes := internal_add_node 0 (Node.new 0 0 InterpType.none) [], name := name }

/-- Error string of `Track::add_node` for `at_time == 0` in `src/lib.rs`. -/
def zeroTimeErr : String := "Inserting a node with at_time=0 is not allowed."

/-- Error string of `Track::add_node` for a duplicate time in `src/lib.rs`. -/
def duplicateTimeErr : String := "A node already exists at this time point."

/-- Error string of `Track::del_node_at` / `update_node_at` in `src/lib.rs`. -/
def notFoundErr : String := "Could not find node at the given time."

/-- The scan loop of `Track::add_node` in `src/lib.rs`
(`for (i, cur_node) in self.nodes.iter().enumerate().skip(1)` with the
running `prev_time`): `Except.error ()` is the early `return` on a
duplicate time, `Except.ok (some i)` the `break` with `insert_index = i`,
`Except.ok none` falling off the loop with `insert_index = None`. -/
def add_scan (addTime prevTime i : Nat) : List Node → Except Unit (Option Nat)
  | [] => Except.ok Option.none
  | cur :: rest =>
    if cur.time = addTime then Except.error ()
    else if addTime < cur.time ∧ prevTime < addTime then Except.ok (some i)
    else add_scan addTime cur.time (i + 1) rest

/-- `Track::add_node` from `src/lib.rs`. The outer `Option` is `none` when
the Rust code panics (`self.nodes[0]` on an empty vector); otherwise
`some (err?, track')` is the returned `Option<&str>` together with the
state of the track after the call. -/
def Track.add_node (tr : Track) (node : Node) : Option (Option String × Track) :=
  if node.time = 0 then some (some zeroTimeErr, tr)
  else
    match tr.nodes with
    | [] => Option.none
    | n0 :: rest =>
      match add_scan node.time n0.time 1 rest with
      | Except.error () => some (some duplicateTimeErr, tr)
      | Except.ok insert_index =>
        let index := insert_index.getD tr.nodes.length
        some (Option.none, { tr with nodes := internal_add_node index node tr.nodes })

/-- The loop of `Track::internal_get_node_at` in `src/lib.rs`, carrying
the enumeration index. -/
def get_node_scan (time i : Nat) : List Node → Nat × Option Node
  | [] => (0, Option.none)
  | n :: rest => if n.time = time then (i, some n) else get_node_scan time (i + 1) rest

/-- `Track::internal_get_node_at` from `src/lib.rs`. -/
def Track.internal_get_node_at (tr : Track) (time : Nat) : Nat × Option Node :=
  get_node_scan time 0 tr.nodes

/-- `Track::internal_get_node_index_at` from `src/lib.rs`. -/
def Track.internal_get_node_index_at (tr : Track) (time : Nat) : Option Nat :=
  match tr.internal_get_node_at time with
  | (index, some _) => some index
  | (_, Option.none) => Option.none

/-- `Track::get_node_at` from `src/lib.rs`. -/
def Track.get_node_at (tr : Track) (time : Nat) : Option Node :=
  (tr.internal_get_node_at time).2

/-- `Track::del_node_at` from `src/lib.rs`: `Vec::remove(index)` on the
found index, otherwise the not-found error; never panics. -/
def Track.del_node_at (tr : Track) (time : Nat) : Option String × Track :=
  match tr.internal_get_node_index_at time with
  | some index => (Option.none, { tr with nodes := tr.nodes.eraseIdx index })
  | Option.none => (some notFoundErr, tr)

/-- `Track::update_node_at` from `src/lib.rs`. In-place overwrite
(`self.nodes[index] = *node`) when the found node is last
(`index + 1 == self.nodes.len()`) or keeps its time; otherwise
`del_node_at` followed by `add_node`, both results discarded, returning
`None` (success) unconditionally. The outer `Option` is `none` when a
nested call panics. -/
def Track.update_node_at (tr : Track) (time : Nat) (node : Node) : Option (Option String × Track) :=
  match tr.internal_get_node_at time with
  | (index, some found) =>
    if index + 1 = tr.nodes.length ∨ found.time = node.time then
      some (Option.none, { tr with nodes := tr.nodes.set index node })
    else
      match Track.add_node (tr.del_node_at time).2 node with
      | some (_err, tr2) => some (Option.none, tr2)
      | Option.none => Option.none
  | (_, Option.none) => some (some notFoundErr, tr)

/-- The loop of `Track::internal_get_nodes_between` in `src/lib.rs`:
walks adjacent pairs `(prev_node, node)` and returns the first with
`time >= prev_node.time && node.time >= time`; falls off the loop with
`(prev_node, None)`. -/
def between_scan (time : Nat) (prev : Node) : List Node → Node × Option Node
  | [] => (prev, Option.none)
  | n :: rest =>
    if prev.time ≤ time ∧ time ≤ n.time then (prev, some n)
    else between_scan time n rest

/-- `Track::internal_get_nodes_between` from `src/lib.rs`; `none` when the
Rust code panics (`self.nodes[0]` on an empty vector). -/
def Track.internal_get_nodes_between (tr : Track) (time : Nat) : Option (Node × Option Node) :=
  match tr.nodes with
  | [] => Option.none
  | n0 :: rest => some (between_scan time n0 rest)

/-- `Track::get_value_at` from `src/lib.rs`:
`t = (time as f64 - left.time as f64) / (right.time as f64 - left.time as f64)`,
then `(right.interp.to_func())(left, right, t)`; the left node's value when
there is no right bracket. `none` when the source panics (empty track). -/
def Track.get_value_at (tr : Track) (time : Nat) : Option ℚ :=
  match tr.internal_get_nodes_between time with
  | Option.none => Option.none
  | some (left, Option.none) => some left.value
  | some (left, some right) =>
    let t : ℚ := ((time : ℚ) - (left.time : ℚ)) / ((right.time : ℚ) - (left.time : ℚ))
    some (right.interp.to_func left right t)

/-- The strict time order on nodes. -/
def ltTime (a b : Node) : Prop := a.time < b.time

instance : DecidableRel ltTime := fun a b => Nat.decLt a.time b.time

instance : IsTrans Node ltTime := ⟨fun _ _ _ h1 h2 => Nat.lt_trans h1 h2⟩

/-- The strict time ordering invariant of §3 of the spec: the stored node
sequence is strictly increasing by time (so in particular no two stored
nodes share a time). -/
def TimeSorted (l : List Node) : Prop :=
  List.Pairwise ltTime l

instance : DecidablePred TimeSorted := fun l =>
  inferInstanceAs (Decidable (List.Pairwise ltTime l))

/-- The full data-model invariant of §3 of the spec for one track: the
node sequence is strictly increasing by time and starts with the
synthetic time-0 node (hence is nonempty). -/
def TrackInv (tr : Track) : Prop :=
  TimeSorted tr.nodes ∧ (tr.nodes.map Node.time).head? = some 0

instance : DecidablePred TrackInv := fun tr =>
  inferInstanceAs (Decidable (TimeSorted tr.nodes ∧ (tr.nodes.map Node.time).head? = some 0))

/-- `struct Timeline { tracks: HashMap<String, Track> }` from `src/lib.rs`.
The hash map is modelled as an association list with unique keys; the
source's iteration order is unspecified, the list fixes one. -/
structure Timeline where
  tracks : List (String × Track)
deriving DecidableEq, Repr

/-- `Timeline::new` from `src/lib.rs`. -/
def Timeline.new : Timeline := { tracks := [] }

/-- `Timeline::try_add_track` from `src/lib.rs`: no-op when the name is
present, otherwise inserts `Track::new(name)` under `name`. -/
def Timeline.try_add_track (tl : Timeline) (name : String) : Timeline :=
  if tl.tracks.any (fun p => p.1 = name) then tl
  else { tracks := tl.tracks ++ [(name, Track.new name)] }

/-- `Timeline::get_track_mut` from `src/lib.rs`: `try_add_track` then
`get_mut(name).unwrap()`; returns the updated timeline together with the
looked-up track. -/
def Timeline.get_track_mut (tl : Timeline) (name : String) : Timeline × Option Track :=
  let tl' := tl.try_add_track name
  (tl', (tl'.tracks.find? (fun p => p.1 = name)).map Prod.snd)

/-!
## Persistence (`Timeline::save` / `Timeline::load`, `src/lib.rs`)

`serde_json` is modelled at the JSON document level: `Json` below is the
document tree that `serde_json::to_string` prints and `from_str` parses
(both are exact inverses on the tree: the printer emits numbers that
re-parse to the same value, and non-finite doubles are printed as
`null`, see `F64.toJson` below). The `toJson`/`fromJson` functions
mirror the `Serialize`/`Deserialize` implementations derived for
`Timeline`, `Track`, `Node` and `InterpType` in `src/lib.rs`: structs
become objects with one field per struct field, `Vec` an array,
`HashMap<String, _>` an object, `u32` a non-negative integral number
below `2^32`, a finite `f64` a number, a non-finite `f64` the `null`
document, and the C-like enum `InterpType` its variant name as a
string.

The deserialization direction is stated over the `ℚ`-valued data model
(a JSON number always parses to a finite double, so `ℚ` loses nothing
there). The serialization direction is stated over the `F64`-refined
model below, because a stored `f64` can also be NaN or ±∞ — the case
where `serde_json` emits `null` and the round trip breaks.
-/

/-- A JSON document. Numbers are modelled as `ℚ` (finite doubles print
as numbers that re-parse exactly). -/
inductive Json where
  | null
  | num (q : ℚ)
  | str (s : String)
  | arr (elems : List Json)
  | obj (fields : List (String × Json))

/-- Field access in a JSON object (derived deserializers read each field
by name). -/
def Json.getField : Json → String → Option Json
  | .obj fields, key => fields.lookup key
  | _, _ => Option.none

/-- Deserialization of a `u32` field: a non-negative integral number
below `2^32`. -/
def Json.asU32 : Json → Option Nat
  | .num q => if q.den = 1 ∧ 0 ≤ q.num ∧ q.num < 4294967296 then some q.num.toNat else Option.none
  | _ => Option.none

/-- Deserialization of an `f64` field: any number. -/
def Json.asF64 : Json → Option ℚ
  | .num q => some q
  | _ => Option.none

/-- Deserialization of a `String` field. -/
def Json.asStr : Json → Option String
  | .str s => some s
  | _ => Option.none

/-- Deserialization of a `Vec` field: an array's elements. -/
def Json.asArr : Json → Option (List Json)
  | .arr elems => some elems
  | _ => Option.none

/-- Deserialization of a `HashMap<String, _>` field: an object's entries. -/
def Json.asEntries : Json → Option (List (String × Json))
  | .obj fields => some fields
  | _ => Option.none

/-- Derived `Serialize` for `InterpType`: the variant name as a string. -/
def InterpType.toJson : InterpType → Json
  | .none => .str "None"
  | .linear => .str "Linear"

/-- Derived `Deserialize` for `InterpType`. -/
def InterpType.fromJson : Json → Option InterpType
  | .str "None" => some InterpType.none
  | .str "Linear" => some InterpType.linear
  | _ => Option.none

/-- Derived `Deserialize` for `Node`. A JSON number always deserializes
to a finite double, so the `ℚ` value model is exact here. -/
def Node.fromJson (j : Json) : Option Node := do
  let time ← (← j.getField "time").asU32
  let value ← (← j.getField "value").asF64
  let interp ← InterpType.fromJson (← j.getField "interp")
  pure { time := time, value := value, interp := interp }

/-- Derived `Deserialize` for `Track`: parses the listed fields and
re-validates nothing (no ordering, uniqueness, non-emptiness or time-0
check). -/
def Track.fromJson (j : Json) : Option Track := do
  let nodes ← (← (← j.getField "nodes").asArr).mapM Node.fromJson
  let name ← (← j.getField "name").asStr
  pure { nodes := nodes, name := name }

/-- Derived `Deserialize` for `Timeline`. -/
def Timeline.fromJson (j : Json) : Option Timeline := do
  let entries ← (← j.getField "tracks").asEntries
  let tracks ← entries.mapM (fun p => (Track.fromJson p.2).map (fun tr => (p.1, tr)))
  pure { tracks := tracks }

/-- `Timeline::load` from `src/lib.rs`, at the document level:
`serde_json::from_str` via the derived deserializers, errors collapsed to
the fixed message. -/
def Timeline.load (j : Json) : Except String Timeline :=
  match Timeline.fromJson j with
  | some tl => Except.ok tl
  | Option.none => Except.error "Failed to load timeline."

/-!
### The `F64`-refined model for the serialization direction

A stored `f64` is not always finite: `Track::add_node` and the C API
never inspect the value, so NaN and ±∞ are reachable node values. On
serialization this is observable — `serde_json::to_string` prints a
non-finite `f64` as `null` (and still succeeds), while deserializing
`null` into an `f64` field fails. The structures below are the same
`Node` / `Track` / `Timeline` of `src/lib.rs` with the value field
refined to `F64` so that this case is representable; the data-model
operations themselves never branch on a value, so the `ℚ`-valued
embedding above remains faithful for them.
-/

/-- An `f64` at the precision the persistence layer observes: a finite
double (exact rational) or one of the non-finite values. -/
inductive F64 where
  | finite (q : ℚ)
  | nan
  | inf
  | neginf
deriving DecidableEq, Repr

/-- Finiteness of a modelled double. -/
def F64.IsFinite : F64 → Prop
  | .finite _ => True
  | _ => False

instance : DecidablePred F64.IsFinite := fun v =>
  match v with
  | .finite _ => isTrue trivial
  | .nan => isFalse fun h => h
  | .inf => isFalse fun h => h
  | .neginf => isFalse fun h => h

/-- `serde_json`'s serializer for `f64`: finite doubles print as
numbers, NaN and ±∞ print as `null` (without failing). -/
def F64.toJson : F64 → Json
  | .finite q => .num q
  | _ => .null

/-- `struct Node` of `src/lib.rs` with its value refined to `F64`. -/
structure NodeF where
  time : Nat
  value : F64
  interp : InterpType
deriving DecidableEq, Repr

/-- `struct Track` of `src/lib.rs` over `F64`-valued nodes. -/
structure TrackF where
  nodes : List NodeF
  name : String
deriving DecidableEq, Repr

/-- `struct Timeline` of `src/lib.rs` over `F64`-valued tracks. -/
structure TimelineF where
  tracks : List (String × TrackF)
deriving DecidableEq, Repr

/-- Derived `Serialize` for `Node`. -/
def NodeF.toJson (n : NodeF) : Json :=
  .obj [("time", .num (n.time : ℚ)), ("value", n.value.toJson), ("interp", n.interp.toJson)]

/-- Derived `Deserialize` for `Node` over `F64`: a JSON number is the
only accepted value form (in particular `null` fails), and it always
denotes a finite double. -/
def NodeF.fromJson (j : Json) : Option NodeF := do
  let time ← (← j.getField "time").asU32
  let value ← (← j.getField "value").asF64
  let interp ← InterpType.fromJson (← j.getField "interp")
  pure { time := time, value := F64.finite value, interp := interp }

/-- Derived `Serialize` for `Track`. -/
def TrackF.toJson (tr : TrackF) : Json :=
  .obj [("nodes", .arr (tr.nodes.map NodeF.toJson)), ("name", .str tr.name)]

/-- Derived `Deserialize` for `Track` over `F64`. -/
def TrackF.fromJson (j : Json) : Option TrackF := do
  let nodes ← (← (← j.getField "nodes").asArr).mapM NodeF.fromJson
  let name ← (← j.getField "name").asStr
  pure { nodes := nodes, name := name }

/-- Derived `Serialize` for `Timeline`. -/
def TimelineF.toJson (tl : TimelineF) : Json :=
  .obj [("tracks", .obj (tl.tracks.map (fun p => (p.1, TrackF.toJson p.2))))]

/-- Derived `Deserialize` for `Timeline` over `F64`. -/
def TimelineF.fromJson (j : Json) : Option TimelineF := do
  let entries ← (← j.getField "tracks").asEntries
  let tracks ← entries.mapM (fun p => (TrackF.fromJson p.2).map (fun tr => (p.1, tr)))
  pure { tracks := tracks }

/-- `Timeline::save` from `src/lib.rs`, at the document level.
`serde_json::to_string` cannot fail on this type (string-keyed map, no
fallible `Serialize` impl; a non-finite `f64` is printed as `null`, not
rejected), so the `Err("Failed to save timeline.")` branch is dead and
the result is always `Ok`. -/
def TimelineF.save (tl : TimelineF) : Except String Json :=
  Except.ok tl.toJson

/-- `Timeline::load` from `src/lib.rs` over the `F64` model, mirroring
`Timeline.load`. -/
def TimelineF.load (j : Json) : Except String TimelineF :=
  match TimelineF.fromJson j with
  | some tl => Except.ok tl
  | Option.none => Except.error "Failed to load timeline."

/-!
## The C API (`mod ffi`, `src/lib.rs`)

Raw pointers are `Option` handles (`none` = null). An FFI call either
produces a value or `fault`s: `fault` models dereferencing a null
pointer, the undefined behaviour the source hits when a function lacks a
null check. Calls that mutate through the handle return the updated
object alongside the C-visible return value.
-/

/-- Outcome of a C API call: a returned value, or a fault from
dereferencing a null handle. -/
inductive CResult (α : Type) where
  | ok (val : α)
  | fault
deriving DecidableEq, Repr

/-- `struct CAPINodeIterator { track: *const Track, index: usize }` from
`src/lib.rs`. -/
structure CAPINodeIterator where
  track : Option Track
  index : Nat
deriving DecidableEq, Repr

namespace ffi

/-- `demy_tl_track_get` from `src/lib.rs`: converts `name` via
`CStr::from_ptr` (dereferences it), then dereferences `tl` — neither
pointer is null-checked. Returns the updated timeline and the track
pointer (never null on the non-fault path). -/
def demy_tl_track_get (tl : Option Timeline) (name : Option String) :
    CResult (Timeline × Option Track) :=
  match name with
  | Option.none => CResult.fault
  | some nm =>
    match tl with
    | Option.none => CResult.fault
    | some tl => CResult.ok (tl.get_track_mut nm)

/-- `demy_tr_add_node` from `src/lib.rs`: builds the node, then
dereferences `tr` with no null check; `false` on a data-model error,
`true` on success. -/
def demy_tr_add_node (tr : Option Track) (time : Nat) (value : ℚ) (interp : InterpType) :
    CResult (Bool × Track) :=
  match tr with
  | Option.none => CResult.fault
  | some tr =>
    match tr.add_node (Node.new time value interp) with
    | some (some _err, tr') => CResult.ok (false, tr')
    | some (Option.none, tr') => CResult.ok (true, tr')
    | Option.none => CResult.fault

/-- `demy_tr_del_node` from `src/lib.rs`: dereferences `tr` with no null
check. -/
def demy_tr_del_node (tr : Option Track) (time : Nat) : CResult (Bool × Track) :=
  match tr with
  | Option.none => CResult.fault
  | some tr =>
    match tr.del_node_at time with
    | (some _err, tr') => CResult.ok (false, tr')
    | (Option.none, tr') => CResult.ok (true, tr')

/-- `demy_tr_get_node` from `src/lib.rs`: dereferences `tr` with no null
check; the returned node pointer is null (`none`) when no node matches. -/
def demy_tr_get_node (tr : Option Track) (time : Nat) : CResult (Option Node) :=
  match tr with
  | Option.none => CResult.fault
  | some tr => CResult.ok (tr.get_node_at time)

/-- `demy_tr_iter_are_eq` from `src/lib.rs`: explicit null checks
returning `false`, then compares indices. -/
def demy_tr_iter_are_eq (a b : Option CAPINodeIterator) : CResult Bool :=
  match a, b with
  | Option.none, _ => CResult.ok false
  | _, Option.none => CResult.ok false
  | some a, some b => CResult.ok (a.index == b.index)

/-- `demy_node_free` from `src/lib.rs`: explicit null check, no-op on
null. Returns whether the box was reclaimed. -/
def demy_node_free (node : Option Node) : CResult Bool :=
  match node with
  | Option.none => CResult.ok false
  | some _ => CResult.ok true

/-- `demy_node_set_value` from `src/lib.rs`: explicit null check, no-op
on null; returns the node behind the handle after the call. -/
def demy_node_set_value (node : Option Node) (value : ℚ) : CResult (Option Node) :=
  match node with
  | Option.none => CResult.ok Option.none
  | some n => CResult.ok (some { n with value := value })

/-- `demy_node_get_value` from `src/lib.rs`: explicit null check
returning `0.0`. -/
def demy_node_get_value (node : Option Node) : CResult ℚ :=
  match node with
  | Option.none => CResult.ok 0
  | some n => CResult.ok n.value

/-- `demy_node_get_time` from `src/lib.rs`: explicit null check
returning `0`. -/
def demy_node_get_time (node : Option Node) : CResult Nat :=
  match node with
  | Option.none => CResult.ok 0
  | some n => CResult.ok n.time

/-- `demy_node_get_interp` from `src/lib.rs`: explicit null check
returning `InterpType::None`. -/
def demy_node_get_interp (node : Option Node) : CResult InterpType :=
  match node with
  | Option.none => CResult.ok InterpType.none
  | some n => CResult.ok n.interp

end ffi

/-!
## Helper lemmas about the insertion scan of `Track::add_node`
-/

/-- The scan only reports a duplicate when the scanned suffix really
holds a node at the new time. -/
theorem add_scan_error_mem (a : Nat) :
    ∀ (rest : List Node) (p i : Nat),
      add_scan a p i rest = Except.error () → ∃ n ∈ rest, n.time = a := by
  intro rest
  induction rest with
  | nil => intro p i h; simp [add_scan] at h
  | cons cur rest ih =>
    intro p i h
    by_cases hc1 : cur.time = a
    · exact ⟨cur, List.mem_cons_self cur rest, hc1⟩
    · by_cases hc2 : a < cur.time ∧ p < a
      · simp [add_scan, hc1, hc2] at h
      · simp only [add_scan, if_neg hc1, if_neg hc2] at h
        obtain ⟨n, hn, hna⟩ := ih cur.time (i + 1) h
        exact ⟨n, List.mem_cons_of_mem cur hn, hna⟩

/-- On a sorted suffix that holds a node at the new time, the scan stops
with the duplicate error. -/
theorem add_scan_error_of_mem (a : Nat) :
    ∀ (rest : List Node) (pn : Node) (i : Nat),
      List.Pairwise ltTime (pn :: rest) → pn.time < a →
      (∃ n ∈ rest, n.time = a) →
      add_scan a pn.time i rest = Except.error () := by
  intro rest
  induction rest with
  | nil => intro pn i _ _ h; simp at h
  | cons cur rest ih =>
    intro pn i hp hlt hex
    by_cases hc1 : cur.time = a
    · simp [add_scan, hc1]
    · obtain ⟨n, hn, hna⟩ := hex
      have hnrest : n ∈ rest := by
        cases hn with
        | head => exact absurd hna hc1
        | tail _ h => exact h
      have hcur_n : ltTime cur n := ((List.pairwise_cons.mp (List.pairwise_cons.mp hp).2).1) n hnrest
      have hcur_lt : cur.time < a := by
        rcases Nat.lt_trichotomy cur.time a with h | h | h
        · exact h
        · exact absurd h hc1
        · exact absurd (hna ▸ hcur_n) (Nat.lt_asymm h)
      have hc2 : ¬(a < cur.time ∧ pn.time < a) := fun h => Nat.lt_asymm hcur_lt h.1
      simp only [add_scan, if_neg hc1, if_neg hc2]
      exact ih cur i.succ (List.pairwise_cons.mp hp).2 hcur_lt ⟨n, hnrest, hna⟩

/-- When the scan falls off the end, every scanned node's time is below
the new time. -/
theorem add_scan_none_lt (a : Nat) :
    ∀ (rest : List Node) (p i : Nat),
      p < a → add_scan a p i rest = Except.ok Option.none →
      ∀ n ∈ rest, n.time < a := by
  intro rest
  induction rest with
  | nil => intro p i _ _ n hn; cases hn
  | cons cur rest ih =>
    intro p i hlt h n hn
    by_cases hc1 : cur.time = a
    · simp [add_scan, hc1] at h
    · by_cases hc2 : a < cur.time ∧ p < a
      · simp [add_scan, hc1, hc2] at h
      · simp only [add_scan, if_neg hc1, if_neg hc2] at h
        have hcur_lt : cur.time < a := by
          rcases Nat.lt_trichotomy cur.time a with h' | h' | h'
          · exact h'
          · exact absurd h' hc1
          · exact absurd ⟨h', hlt⟩ hc2
        cases hn with
        | head => exact hcur_lt
        | tail _ hn => exact ih cur.time (i + 1) hcur_lt h n hn

/-- When the scan breaks with an insertion index `j = i + k`, the
scanned nodes before position `k` are below the new time and the node at
position `k` is above it. -/
theorem add_scan_some_split (a : Nat) :
    ∀ (rest : List Node) (p i j : Nat),
      p < a → add_scan a p i rest = Except.ok (some j) →
      ∃ k, k < rest.length ∧ j = i + k ∧
        (∀ n ∈ rest.take k, n.time < a) ∧
        ∃ hd tl, rest.drop k = hd :: tl ∧ a < hd.time := by
  intro rest
  induction rest with
  | nil => intro p i j _ h; simp [add_scan] at h
  | cons cur rest ih =>
    intro p i j hlt h
    by_cases hc1 : cur.time = a
    · simp [add_scan, hc1] at h
    · by_cases hc2 : a < cur.time ∧ p < a
      · simp only [add_scan, if_neg hc1, if_pos hc2, Except.ok.injEq, Option.some.injEq] at h
        refine ⟨0, Nat.succ_pos _, by omega, ?_, cur, rest, rfl, hc2.1⟩
        intro n hn; simp at hn
      · simp only [add_scan, if_neg hc1, if_neg hc2] at h
        have hcur_lt : cur.time < a := by
          rcases Nat.lt_trichotomy cur.time a with h' | h' | h'
          · exact h'
          · exact absurd h' hc1
          · exact absurd ⟨h', hlt⟩ hc2
        obtain ⟨k, hk, hj, htake, hd, tl, hdrop, hhd⟩ := ih cur.time (i + 1) j hcur_lt h
        refine ⟨k + 1, by simpa using Nat.succ_lt_succ hk, by omega, ?_, hd, tl, by simpa using hdrop, hhd⟩
        intro n hn
        rw [List.take_succ_cons] at hn
        cases hn with
        | head => exact hcur_lt
        | tail _ hn => exact htake n hn

/-!
## Specification lemmas for the public `Track` operations
-/

/-- `add_node` always rejects time 0 without touching the track. -/
theorem add_node_zero (tr : Track) (node : Node) (h : node.time = 0) :
    tr.add_node node = some (some zeroTimeErr, tr) := by
  simp [Track.add_node, h]

/-- On a sorted track whose first node precedes the new time, a
duplicate time in the tail makes `add_node` fail with the duplicate
error, leaving the track untouched. -/
theorem add_node_dup (tr : Track) (node n0 : Node) (rest : List Node)
    (hl : tr.nodes = n0 :: rest)
    (hp : List.Pairwise ltTime tr.nodes)
    (hlt : n0.time < node.time)
    (hdup : ∃ n ∈ rest, n.time = node.time) :
    tr.add_node node = some (some duplicateTimeErr, tr) := by
  have hnz : node.time ≠ 0 := Nat.pos_iff_ne_zero.mp (Nat.lt_of_le_of_lt (Nat.zero_le _) hlt)
  rw [hl] at hp
  simp only [Track.add_node, if_neg hnz, hl]
  rw [add_scan_error_of_mem node.time rest n0 1 hp hlt hdup]

/-- On a sorted track whose first node precedes the new, un-stored time,
`add_node` succeeds and the node sequence stays sorted, keeps its head,
and grows by one. -/
theorem add_node_ok (tr : Track) (node n0 : Node) (rest : List Node)
    (hl : tr.nodes = n0 :: rest)
    (hp : List.Pairwise ltTime tr.nodes)
    (hlt : n0.time < node.time)
    (hnd : ∀ n ∈ rest, n.time ≠ node.time) :
    ∃ nodes', tr.add_node node = some (Option.none, { tr with nodes := nodes' }) ∧
      List.Pairwise ltTime nodes' ∧ nodes'.head? = some n0 ∧
      nodes'.length = tr.nodes.length + 1 := by
  have hnz : node.time ≠ 0 := Nat.pos_iff_ne_zero.mp (Nat.lt_of_le_of_lt (Nat.zero_le _) hlt)
  have hp' := hl ▸ hp
  simp only [Track.add_node, if_neg hnz, hl]
  rcases hscan : add_scan node.time n0.time 1 rest with e | oi
  · obtain ⟨n, hn, hna⟩ := add_scan_error_mem node.time rest n0.time 1 (by cases e; exact hscan)
    exact absurd hna (hnd n hn)
  rcases oi with _ | j
  · -- fell off the loop: append
    have hall : ∀ n ∈ rest, n.time < node.time :=
      add_scan_none_lt node.time rest n0.time 1 hlt hscan
    refine ⟨(n0 :: rest) ++ [node], ?_, ?_, ?_, ?_⟩
    · have hlen : ¬((n0 :: rest).length ≤ Option.none.getD (n0 :: rest).length) → True := fun _ => trivial
      simp only [internal_add_node, Option.getD_none, le_refl, if_pos]
    · rw [List.pairwise_append]
      refine ⟨hp', List.pairwise_singleton _ _, ?_⟩
      intro x hx y hy
      rw [List.mem_singleton] at hy
      subst hy
      cases hx with
      | head => exact hlt
      | tail _ hx => exact hall x hx
    · rfl
    · simp [hl]
  · -- break: insert before the first later node
    obtain ⟨k, hk, hj, htake, hd, tl, hdrop, hhd⟩ :=
      add_scan_some_split node.time rest n0.time 1 j hlt hscan
    have hjlen : ¬((n0 :: rest).length ≤ j) := by
      simp only [List.length_cons]; omega
    refine ⟨(n0 :: rest.take k) ++ node :: rest.drop k, ?_, ?_, ?_, ?_⟩
    · subst hj
      have hcond : ¬((n0 :: rest).length ≤ 1 + k) := by
        simp only [List.length_cons]; omega
      simp only [internal_add_node, Option.getD_some,
        show 1 + k = k + 1 from by omega, List.take_succ_cons, List.drop_succ_cons,
        List.cons_append]
      rw [if_neg (show ¬((n0 :: rest).length ≤ k + 1) from by
        simp only [List.length_cons]; omega)]
    · -- sortedness of the inserted sequence
      have hp_rest : List.Pairwise ltTime rest := (List.pairwise_cons.mp hp').2
      have hp_drop : List.Pairwise ltTime (rest.drop k) :=
        hp_rest.sublist (List.drop_sublist k rest)
      have hdrop_gt : ∀ y ∈ rest.drop k, node.time < y.time := by
        intro y hy
        rw [hdrop] at hy hp_drop
        cases hy with
        | head => exact hhd
        | tail _ hy =>
          exact Nat.lt_trans hhd (((List.pairwise_cons.mp hp_drop).1) y hy)
      rw [List.pairwise_append]
      refine ⟨?_, ?_, ?_⟩
      · exact hp'.sublist ((List.take_sublist k rest).cons₂ n0)
      · rw [List.pairwise_cons]
        exact ⟨fun y hy => hdrop_gt y hy, hp_drop⟩
      · intro x hx y hy
        have hx_lt : x.time < node.time := by
          cases hx with
          | head => exact hlt
          | tail _ hx => exact htake x hx
        cases hy with
        | head => exact hx_lt
        | tail _ hy => exact Nat.lt_trans hx_lt (hdrop_gt y hy)
    · rfl
    · simp only [List.cons_append, List.length_cons, List.length_append,
        List.length_take, List.length_drop, hl]
      have : min k rest.length = k := Nat.min_eq_left (Nat.le_of_lt hk)
      omega

/-- `add_node` never empties a nonempty track. -/
theorem add_node_ne_nil (tr : Track) (node : Node) (e : Option String) (tr' : Track)
    (h : tr.add_node node = some (e, tr')) (hne : tr.nodes ≠ []) :
    tr'.nodes ≠ [] := by
  by_cases hz : node.time = 0
  · rw [add_node_zero tr node hz] at h
    cases h; exact hne
  rcases hl : tr.nodes with _ | ⟨n0, rest⟩
  · exact absurd hl hne
  simp only [Track.add_node, if_neg hz, hl] at h
  rcases hscan : add_scan node.time n0.time 1 rest with e' | oi <;> rw [hscan] at h
  · cases h; exact hne
  · simp only [Option.some.injEq, Prod.mk.injEq] at h
    obtain ⟨-, h2⟩ := h
    subst h2
    simp only [internal_add_node]
    split
    · simp
    · intro habs
      have := congrArg List.length habs
      simp at this

/-- A successful linear lookup returns a stored node with the queried
time, at offset `j - i` of the scanned list. -/
theorem get_node_scan_some (t : Nat) :
    ∀ (l : List Node) (i j : Nat) (n : Node),
      get_node_scan t i l = (j, some n) →
      ∃ k, j = i + k ∧ l[k]? = some n ∧ n.time = t := by
  intro l
  induction l with
  | nil => intro i j n h; simp [get_node_scan] at h
  | cons x l ih =>
    intro i j n h
    by_cases hx : x.time = t
    · simp only [get_node_scan, if_pos hx, Prod.mk.injEq, Option.some.injEq] at h
      exact ⟨0, by omega, by simp [← h.2], h.2 ▸ hx⟩
    · simp only [get_node_scan, if_neg hx] at h
      obtain ⟨k, hj, hget, hnt⟩ := ih (i + 1) j n h
      exact ⟨k + 1, by omega, by simpa using hget, hnt⟩

/-- `del_node_at` preserves the strict time ordering (it only removes). -/
theorem del_node_at_sorted (tr : Track) (t : Nat)
    (hp : List.Pairwise ltTime tr.nodes) :
    List.Pairwise ltTime (tr.del_node_at t).2.nodes := by
  unfold Track.del_node_at
  rcases h : tr.internal_get_node_index_at t with _ | index
  · exact hp
  · exact hp.sublist (List.eraseIdx_sublist tr.nodes index)

/-- `del_node_at` removes at most one node. -/
theorem del_node_at_ne_nil (tr : Track) (t : Nat) (h : 2 ≤ tr.nodes.length) :
    (tr.del_node_at t).2.nodes ≠ [] := by
  unfold Track.del_node_at
  rcases hidx : tr.internal_get_node_index_at t with _ | index
  · intro habs; rw [habs] at h; simp at h
  · intro habs
    have := congrArg List.length habs
    rw [List.length_eraseIdx] at this
    simp only [List.length_nil] at this
    split at this <;> omega

/-- Deleting a time different from the first node's keeps that node in
front. -/
theorem del_node_at_head (tr : Track) (t : Nat) (n0 : Node) (rest : List Node)
    (hl : tr.nodes = n0 :: rest) (hne : n0.time ≠ t) :
    (tr.del_node_at t).2.nodes.head? = some n0 := by
  rcases hscan : get_node_scan t 0 (n0 :: rest) with ⟨j, fnd⟩
  rcases fnd with _ | found
  · simp [Track.del_node_at, Track.internal_get_node_index_at,
      Track.internal_get_node_at, hscan, hl]
  · obtain ⟨k, hk0, hget, hft⟩ := get_node_scan_some t (n0 :: rest) 0 j found hscan
    have hkpos : k ≠ 0 := by
      intro h0
      rw [h0] at hget
      simp only [List.getElem?_cons_zero, Option.some.injEq] at hget
      exact hne (by rw [hget]; exact hft)
    rcases k with _ | k
    · exact absurd rfl hkpos
    · simp only [Track.del_node_at, Track.internal_get_node_index_at,
        Track.internal_get_node_at, hscan, hl, show j = k + 1 from by omega,
        List.eraseIdx_cons_succ, List.head?_cons]

/-- Overwriting a stored node with one of equal time keeps the sequence
sorted. -/
theorem pairwise_set_time_eq (l : List Node) (i : Nat) (x y : Node)
    (hp : List.Pairwise ltTime l) (hget : l[i]? = some x) (hty : y.time = x.time) :
    List.Pairwise ltTime (l.set i y) := by
  have hi : i < l.length := by
    by_contra hge
    rw [List.getElem?_eq_none (Nat.le_of_not_lt hge)] at hget
    cases hget
  have hx : l[i] = x := by
    have := List.getElem?_eq_getElem hi
    rw [this] at hget
    exact Option.some.inj hget
  rw [List.pairwise_iff_getElem] at hp ⊢
  intro a b ha hb hab
  simp only [List.length_set] at ha hb
  rw [List.getElem_set, List.getElem_set]
  by_cases hia : i = a
  · subst hia
    rw [if_pos rfl, if_neg (show ¬(i = b) from by omega)]
    show y.time < _
    rw [hty, ← hx]
    exact hp i b ha hb hab
  · by_cases hib : i = b
    · subst hib
      rw [if_neg hia, if_pos rfl]
      show _ < y.time
      rw [hty, ← hx]
      exact hp a i ha hb hab
    · rw [if_neg hia, if_neg hib]
      exact hp a b ha hb hab

/-- Overwriting the last stored node with one whose time exceeds every
other stored time keeps the sequence sorted. -/
theorem pairwise_set_last (l : List Node) (i : Nat) (y : Node)
    (hp : List.Pairwise ltTime l) (hlast : i + 1 = l.length)
    (hbig : ∀ (a : Nat) (ha : a < l.length), a ≠ i → l[a].time < y.time) :
    List.Pairwise ltTime (l.set i y) := by
  rw [List.pairwise_iff_getElem] at hp ⊢
  intro a b ha hb hab
  simp only [List.length_set] at ha hb
  rw [List.getElem_set, List.getElem_set]
  by_cases hbi : i = b
  · rw [if_pos hbi, if_neg (show ¬(i = a) from by omega)]
    show _ < y.time
    have := hbig a ha (by omega)
    simpa using this
  · rw [if_neg (show ¬(i = a) from by omega), if_neg hbi]
    exact hp a b ha hb hab

/-- A `TrackInv` track destructures as a sorted time-0-headed list. -/
theorem trackInv_destruct (tr : Track) (hinv : TrackInv tr) :
    ∃ n0 rest, tr.nodes = n0 :: rest ∧ n0.time = 0 ∧ List.Pairwise ltTime tr.nodes := by
  obtain ⟨hp, hh⟩ := hinv
  rcases hl : tr.nodes with _ | ⟨n0, rest⟩
  · rw [hl] at hh; cases hh
  · rw [hl] at hh
    simp only [List.map_cons, List.head?_cons, Option.some.injEq] at hh
    exact ⟨n0, rest, rfl, hh, hl ▸ hp⟩

/-- `update_node_at` preserves the track invariant whenever the
replacement keeps the node's time, or targets a nonzero time and carries
a nonzero time no smaller than any other stored node's. -/
theorem update_node_at_inv (tr : Track) (t : Nat) (node : Node)
    (hinv : TrackInv tr)
    (hcond : t = node.time ∨
      (t ≠ 0 ∧ node.time ≠ 0 ∧ ∀ m ∈ tr.nodes, m.time = t ∨ m.time < node.time)) :
    ∃ e tr', tr.update_node_at t node = some (e, tr') ∧ TrackInv tr' := by
  obtain ⟨n0, rest, hl, h00, hp⟩ := trackInv_destruct tr hinv
  rcases hscan : get_node_scan t 0 tr.nodes with ⟨index, fnd⟩
  rcases fnd with _ | found
  · refine ⟨some notFoundErr, tr, ?_, hinv⟩
    simp only [Track.update_node_at, Track.internal_get_node_at, hscan]
  obtain ⟨k, hk0, hget, hft⟩ := get_node_scan_some t tr.nodes 0 index found hscan
  have hkidx : index = k := by omega
  subst hkidx
  have hklen : index < tr.nodes.length := by
    by_contra hge
    rw [List.getElem?_eq_none (Nat.le_of_not_lt hge)] at hget
    cases hget
  have hgetk : tr.nodes[index] = found := by
    have := List.getElem?_eq_getElem hklen
    rw [this] at hget
    exact Option.some.inj hget
  by_cases hbr : index + 1 = tr.nodes.length ∨ found.time = node.time
  · -- in-place overwrite
    refine ⟨Option.none, { tr with nodes := tr.nodes.set index node }, ?_, ?_, ?_⟩
    · simp only [Track.update_node_at, Track.internal_get_node_at, hscan, if_pos hbr]
    · -- sortedness
      by_cases hsame : found.time = node.time
      · exact pairwise_set_time_eq tr.nodes index found node hp hget hsame.symm
      · have hlast : index + 1 = tr.nodes.length := hbr.resolve_right hsame
        rcases hcond with hcd | ⟨ht0, hnz, hall⟩
        · exact absurd (hft.trans hcd) hsame
        · refine pairwise_set_last tr.nodes index node hp hlast ?_
          intro a ha hak
          have hmem : tr.nodes[a] ∈ tr.nodes := List.getElem_mem ha
          rcases hall _ hmem with heq | hlt
          · -- another node at the queried time would break uniqueness
            exfalso
            rw [List.pairwise_iff_getElem] at hp
            rcases Nat.lt_trichotomy a index with hak2 | hak2 | hak2
            · have hcmp : tr.nodes[a].time < found.time := by
                have := hp a index ha hklen hak2
                rw [hgetk] at this
                exact this
              omega
            · exact hak hak2
            · have hcmp : found.time < tr.nodes[a].time := by
                have := hp index a hklen ha hak2
                rw [hgetk] at this
                exact this
              omega
          · exact hlt
    · -- head stays at time 0
      rcases index with _ | k2
      · -- overwriting the first node: only reachable with node.time = 0
        have hfound0 : n0 = found := by
          rw [hl] at hget
          rw [List.getElem?_cons_zero] at hget
          exact Option.some.inj hget
        have h0t : t = 0 := by
          have : found.time = 0 := by rw [← hfound0]; exact h00
          omega
        rcases hcond with hcd | ⟨ht0, _, _⟩
        · have hnz : node.time = 0 := by rw [← hcd, h0t]
          rw [hl]
          simp [hnz]
        · exact absurd h0t ht0
      · rw [hl, List.set_cons_succ]
        simp [h00]
  · -- delete then re-add
    have hne_time : found.time ≠ node.time := fun h => hbr (Or.inr h)
    rcases hcond with hcd | ⟨ht0, hnz, hall⟩
    · exact absurd (hft.trans hcd) hne_time
    have hkpos : index ≠ 0 := by
      intro h0
      subst h0
      rw [hl, List.getElem?_cons_zero] at hget
      have hfound0 : n0 = found := Option.some.inj hget
      have : found.time = 0 := by rw [← hfound0]; exact h00
      omega
    obtain ⟨k2, rfl⟩ : ∃ k2, index = k2 + 1 := ⟨index - 1, by omega⟩
    have hdel : (tr.del_node_at t).2 = { tr with nodes := tr.nodes.eraseIdx (k2 + 1) } := by
      simp only [Track.del_node_at, Track.internal_get_node_index_at,
        Track.internal_get_node_at, hscan]
    have hnodes1 : ({ tr with nodes := tr.nodes.eraseIdx (k2 + 1) } : Track).nodes
        = n0 :: rest.eraseIdx k2 := by
      simp only [hl, List.eraseIdx_cons_succ]
    have hp1 : List.Pairwise ltTime ({ tr with nodes := tr.nodes.eraseIdx (k2 + 1) } : Track).nodes :=
      hp.sublist (List.eraseIdx_sublist tr.nodes (k2 + 1))
    have hlt : n0.time < node.time := by
      rw [h00]; exact Nat.pos_of_ne_zero hnz
    by_cases hdup : ∃ n ∈ rest.eraseIdx k2, n.time = node.time
    · have hadd := add_node_dup { tr with nodes := tr.nodes.eraseIdx (k2 + 1) } node n0
        (rest.eraseIdx k2) hnodes1 hp1 hlt hdup
      refine ⟨Option.none, { tr with nodes := tr.nodes.eraseIdx (k2 + 1) }, ?_, ?_, ?_⟩
      · simp only [Track.update_node_at, Track.internal_get_node_at, hscan, if_neg hbr,
          hdel, hadd]
      · exact hp1
      · rw [hnodes1]; simp [h00]
    · have hnd : ∀ n ∈ rest.eraseIdx k2, n.time ≠ node.time := by
        intro n hn
        exact fun h => hdup ⟨n, hn, h⟩
      obtain ⟨nodes2, hadd, hp2, hhd2, _⟩ := add_node_ok
        { tr with nodes := tr.nodes.eraseIdx (k2 + 1) } node n0 (rest.eraseIdx k2)
        hnodes1 hp1 hlt hnd
      refine ⟨Option.none, { nodes := nodes2, name := tr.name }, ?_, ?_, ?_⟩
      · simp only [Track.update_node_at, Track.internal_get_node_at, hscan, if_neg hbr,
          hdel, hadd]
      · exact hp2
      · show (nodes2.map Node.time).head? = some 0
        rw [List.head?_map, hhd2]
        simp [h00]

/-- `update_node_at` never empties a nonempty track. -/
theorem update_node_at_ne_nil (tr : Track) (t : Nat) (node : Node) (e : Option String)
    (tr' : Track) (h : tr.update_node_at t node = some (e, tr')) (hne : tr.nodes ≠ []) :
    tr'.nodes ≠ [] := by
  rcases hscan : get_node_scan t 0 tr.nodes with ⟨index, fnd⟩
  rcases fnd with _ | found
  · simp only [Track.update_node_at, Track.internal_get_node_at, hscan,
      Option.some.injEq, Prod.mk.injEq] at h
    obtain ⟨-, rfl⟩ := h
    exact hne
  · simp only [Track.update_node_at, Track.internal_get_node_at, hscan] at h
    by_cases hbr : index + 1 = tr.nodes.length ∨ found.time = node.time
    · rw [if_pos hbr] at h
      simp only [Option.some.injEq, Prod.mk.injEq] at h
      obtain ⟨-, rfl⟩ := h
      show tr.nodes.set index node ≠ []
      intro habs
      have := congrArg List.length habs
      rw [List.length_set] at this
      exact hne (List.length_eq_zero.mp (by simpa using this))
    · rw [if_neg hbr] at h
      rcases hadd : Track.add_node (tr.del_node_at t).2 node with _ | ⟨e2, tr2⟩ <;>
        rw [hadd] at h
      · cases h
      · simp only [Option.some.injEq, Prod.mk.injEq] at h
        obtain ⟨-, rfl⟩ := h
        refine add_node_ne_nil _ node e2 tr2 hadd ?_
        obtain ⟨k, hk0, hget, hft⟩ := get_node_scan_some t tr.nodes 0 index found hscan
        have hklen : k < tr.nodes.length := by
          by_contra hge
          rw [List.getElem?_eq_none (Nat.le_of_not_lt hge)] at hget
          cases hget
        have hnotlast : index + 1 ≠ tr.nodes.length := fun hh => hbr (Or.inl hh)
        exact del_node_at_ne_nil tr t (by omega)

/-- On a sorted track, the bracketing scan returns exactly the adjacent
stored pair whose times strictly surround the queried time. -/
theorem between_scan_bracket (time : Nat) :
    ∀ (k : Nat) (pn : Node) (rest : List Node) (l r : Node),
      List.Pairwise ltTime (pn :: rest) →
      (pn :: rest)[k]? = some l → (pn :: rest)[k + 1]? = some r →
      l.time < time → time < r.time →
      between_scan time pn rest = (l, some r) := by
  intro k
  induction k with
  | zero =>
    intro pn rest l r hp hgl hgr hlt hrt
    rw [List.getElem?_cons_zero] at hgl
    cases Option.some.inj hgl
    rcases rest with _ | ⟨m, rest2⟩
    · rw [List.getElem?_cons_succ] at hgr
      cases hgr
    · rw [List.getElem?_cons_succ, List.getElem?_cons_zero] at hgr
      cases Option.some.inj hgr
      simp only [between_scan]
      rw [if_pos (And.intro (Nat.le_of_lt hlt) (Nat.le_of_lt hrt))]
  | succ k ih =>
    intro pn rest l r hp hgl hgr hlt hrt
    rcases rest with _ | ⟨m, rest2⟩
    · rw [List.getElem?_cons_succ] at hgl
      cases hgl
    · rw [List.getElem?_cons_succ] at hgl hgr
      have hm_lt : m.time < time := by
        rcases Nat.eq_zero_or_pos k with hk0 | hkpos
        · subst hk0
          rw [List.getElem?_cons_zero] at hgl
          cases Option.some.inj hgl
          exact hlt
        · have hp2 : List.Pairwise ltTime (m :: rest2) := (List.pairwise_cons.mp hp).2
          have hklen : k < (m :: rest2).length := by
            by_contra hge
            rw [List.getElem?_eq_none (Nat.le_of_not_lt hge)] at hgl
            cases hgl
          have hgetl : (m :: rest2)[k] = l := by
            have := List.getElem?_eq_getElem hklen
            rw [this] at hgl
            exact Option.some.inj hgl
          rw [List.pairwise_iff_getElem] at hp2
          have := hp2 0 k (by simp) hklen hkpos
          rw [hgetl] at this
          exact Nat.lt_trans this hlt
      simp only [between_scan, if_neg
        (show ¬(pn.time ≤ time ∧ time ≤ m.time) from fun hh => absurd hh.2 (by omega))]
      exact ih m rest2 l r (List.pairwise_cons.mp hp).2 hgl hgr hlt hrt

/-!
## Helper lemmas for the persistence round trip
-/

/-- The derived (de)serializers for `InterpType` are inverse. -/
theorem interpType_fromJson_toJson (i : InterpType) :
    InterpType.fromJson i.toJson = some i := by
  cases i <;> rfl

/-- The derived (de)serializers for `Node` are inverse on representable
(`u32`) times and finite values. -/
theorem nodeF_fromJson_toJson (n : NodeF) (h : n.time < 4294967296)
    (hf : n.value.IsFinite) :
    NodeF.fromJson n.toJson = some n := by
  have hcond : ((n.time : ℚ)).den = 1 ∧ 0 ≤ ((n.time : ℚ)).num ∧
      ((n.time : ℚ)).num < 4294967296 := by
    refine ⟨Rat.den_natCast n.time, ?_, ?_⟩
    · rw [Rat.num_natCast]; exact Int.natCast_nonneg n.time
    · rw [Rat.num_natCast]; exact_mod_cast h
  cases hv : n.value with
  | finite q =>
    simp only [NodeF.toJson, NodeF.fromJson, hv, F64.toJson, Json.getField, List.lookup,
      Json.asU32, Json.asF64, Option.bind_eq_bind, Option.bind_some, if_pos hcond,
      interpType_fromJson_toJson]
    simp [h, interpType_fromJson_toJson, hv]
    rw [← hv]
  | nan => rw [hv] at hf; exact hf.elim
  | inf => rw [hv] at hf; exact hf.elim
  | neginf => rw [hv] at hf; exact hf.elim

/-- Element-wise round trip for a serialized node list of finite
values. -/
theorem nodesF_mapM_roundtrip (l : List NodeF)
    (h : ∀ n ∈ l, n.time < 4294967296 ∧ n.value.IsFinite) :
    (l.map NodeF.toJson).mapM NodeF.fromJson = some l := by
  induction l with
  | nil => rfl
  | cons x l ih =>
    rw [List.map_cons, List.mapM_cons,
      nodeF_fromJson_toJson x (h x (List.mem_cons_self x l)).1 (h x (List.mem_cons_self x l)).2,
      ih (fun n hn => h n (List.mem_cons_of_mem x hn))]
    rfl

/-- The derived (de)serializers for `Track` are inverse on representable
times and finite values. -/
theorem trackF_fromJson_toJson (tr : TrackF)
    (h : ∀ n ∈ tr.nodes, n.time < 4294967296 ∧ n.value.IsFinite) :
    TrackF.fromJson tr.toJson = some tr := by
  show ((tr.nodes.map NodeF.toJson).mapM NodeF.fromJson).bind
      (fun nodes => some { nodes := nodes, name := tr.name }) = some tr
  rw [nodesF_mapM_roundtrip tr.nodes h]
  rfl

/-- Entry-wise round trip for the serialized track map. -/
theorem tracksF_mapM_roundtrip (l : List (String × TrackF))
    (h : ∀ p ∈ l, ∀ n ∈ p.2.nodes, n.time < 4294967296 ∧ n.value.IsFinite) :
    (l.map (fun p => (p.1, TrackF.toJson p.2))).mapM
      (fun p => (TrackF.fromJson p.2).map (fun tr => (p.1, tr))) = some l := by
  induction l with
  | nil => rfl
  | cons x l ih =>
    rw [List.map_cons, List.mapM_cons]
    simp only [trackF_fromJson_toJson x.2 (h x (List.mem_cons_self x l))]
    rw [ih (fun p hp => h p (List.mem_cons_of_mem x hp))]
    rfl

/-!
## Claim theorems
-/

/-- C1: for every track holding nodes (0,0,None),(10,1,Linear),(20,2,Linear),
evaluation blends inside the bracketing span with
t = (time − left.time)/(right.time − left.time) and clamps to the last
node's value beyond it: value_at(5) = 0.5, value_at(15) = 1.5, and
value_at(time) = 2.0 for every time beyond the last node (in particular
value_at(25) = 2.0). -/
theorem C1_concrete_track_evaluation :
    ∀ (tr : Track),
      tr.nodes = [Node.new 0 0 InterpType.none, Node.new 10 1 InterpType.linear,
        Node.new 20 2 InterpType.linear] →
      tr.get_value_at 5 = some (1/2) ∧
      tr.get_value_at 15 = some (3/2) ∧
      (∀ time : Nat, 20 < time → tr.get_value_at time = some 2) := by
  intro tr h
  refine ⟨?_, ?_, ?_⟩
  · simp [Track.get_value_at, Track.internal_get_nodes_between, h, between_scan, Node.new,
      InterpType.to_func, interp_linear]
    try norm_num
  · simp [Track.get_value_at, Track.internal_get_nodes_between, h, between_scan, Node.new,
      InterpType.to_func, interp_linear]
    try norm_num
  · intro time ht
    simp only [Track.get_value_at, Track.internal_get_nodes_between, h, between_scan, Node.new]
    rw [if_neg (show ¬(0 ≤ time ∧ time ≤ 10) from by omega),
      if_neg (show ¬(10 ≤ time ∧ time ≤ 20) from by omega)]

/-- C1 witness: the theorem applied to the concrete track named
"camera" at query time 25. -/
theorem C1_concrete_track_evaluation_witness :
    ({ nodes := [Node.new 0 0 InterpType.none, Node.new 10 1 InterpType.linear,
        Node.new 20 2 InterpType.linear], name := "camera" } : Track).get_value_at 25
      = some 2 :=
  (C1_concrete_track_evaluation _ rfl).2.2 25 (by omega)

/-- C2: inside a span between adjacent stored nodes, evaluation applies
the interpolation function of the right-hand endpoint to (left, right, t);
interp_none(from,to,t) = from.value and
interp_linear(from,to,t) = from.value·(1−t) + t·to.value. -/
theorem C2_right_endpoint_dispatch :
    (∀ (a b : Node) (t : ℚ), interp_none a b t = a.value) ∧
    (∀ (a b : Node) (t : ℚ), interp_linear a b t = a.value * (1 - t) + t * b.value) ∧
    ∀ (tr : Track) (time k : Nat) (l r : Node),
      TimeSorted tr.nodes →
      tr.nodes[k]? = some l → tr.nodes[k + 1]? = some r →
      l.time < time → time < r.time →
      tr.get_value_at time =
        some (r.interp.to_func l r
          (((time : ℚ) - (l.time : ℚ)) / ((r.time : ℚ) - (l.time : ℚ)))) := by
  refine ⟨fun a b t => rfl, fun a b t => rfl, ?_⟩
  intro tr time k l r hp hgl hgr hlt hrt
  rcases hl : tr.nodes with _ | ⟨n0, rest⟩
  · rw [hl] at hgl; cases hgl
  · rw [hl] at hgl hgr hp
    have hb := between_scan_bracket time k n0 rest l r hp hgl hgr hlt hrt
    simp only [Track.get_value_at, Track.internal_get_nodes_between, hl, hb]

/-- C2 witness: the dispatch statement applied to the concrete sorted
track [(0,0,None),(10,1,Linear)] at time 5, adjacent pair at index 0. -/
theorem C2_right_endpoint_dispatch_witness :
    ({ nodes := [Node.new 0 0 InterpType.none, Node.new 10 1 InterpType.linear],
       name := "w" } : Track).get_value_at 5 =
      some ((Node.new 10 1 InterpType.linear).interp.to_func
        (Node.new 0 0 InterpType.none) (Node.new 10 1 InterpType.linear)
        (((5 : ℚ) - ((Node.new 0 0 InterpType.none).time : ℚ)) /
          (((Node.new 10 1 InterpType.linear).time : ℚ) -
            ((Node.new 0 0 InterpType.none).time : ℚ)))) :=
  C2_right_endpoint_dispatch.2.2 _ 5 0 _ _ (by decide) rfl rfl (by decide) (by decide)

/-- C3 counterexample: two reachable mutation sequences break strict
time ordering. (1) On the fresh track extended with a node at time 10,
`update_node_at(10, node-with-time-0)` takes the in-place last-node
overwrite and reports success, leaving two nodes at time 0. (2) After
deleting the time-0 node, `add_node(3)` appends out of order behind
times 5 and 10. -/
theorem C3_counterexample :
    ((Track.new "x").add_node (Node.new 10 1 InterpType.none) =
      some (Option.none, { nodes := [Node.new 0 0 InterpType.none,
        Node.new 10 1 InterpType.none], name := "x" })) ∧
    (Track.update_node_at { nodes := [Node.new 0 0 InterpType.none,
        Node.new 10 1 InterpType.none], name := "x" } 10 (Node.new 0 2 InterpType.none) =
      some (Option.none, { nodes := [Node.new 0 0 InterpType.none,
        Node.new 0 2 InterpType.none], name := "x" })) ∧
    ¬ TimeSorted [Node.new 0 0 InterpType.none, Node.new 0 2 InterpType.none] ∧
    ((Track.new "y").add_node (Node.new 5 5 InterpType.none) =
      some (Option.none, { nodes := [Node.new 0 0 InterpType.none,
        Node.new 5 5 InterpType.none], name := "y" })) ∧
    (Track.add_node { nodes := [Node.new 0 0 InterpType.none,
        Node.new 5 5 InterpType.none], name := "y" } (Node.new 10 1 InterpType.none) =
      some (Option.none, { nodes := [Node.new 0 0 InterpType.none,
        Node.new 5 5 InterpType.none, Node.new 10 1 InterpType.none], name := "y" })) ∧
    (Track.del_node_at { nodes := [Node.new 0 0 InterpType.none,
        Node.new 5 5 InterpType.none, Node.new 10 1 InterpType.none], name := "y" } 0 =
      (Option.none, { nodes := [Node.new 5 5 InterpType.none,
        Node.new 10 1 InterpType.none], name := "y" })) ∧
    (Track.add_node { nodes := [Node.new 5 5 InterpType.none,
        Node.new 10 1 InterpType.none], name := "y" } (Node.new 3 1 InterpType.none) =
      some (Option.none, { nodes := [Node.new 5 5 InterpType.none,
        Node.new 10 1 InterpType.none, Node.new 3 1 InterpType.none], name := "y" })) ∧
    ¬ TimeSorted [Node.new 5 5 InterpType.none, Node.new 10 1 InterpType.none,
      Node.new 3 1 InterpType.none] := by
  refine ⟨rfl, rfl, by decide, rfl, rfl, rfl, rfl, by decide⟩

/-- C3 (amended): construction establishes the invariant "nonempty,
first node at time 0, strictly increasing by time"; add_node preserves
it unconditionally, del_node_at preserves it for deletions of nonzero
times, and update_node_at preserves it when the replacement keeps the
node's time or moves a nonzero-time node to a nonzero time larger than
every other stored node's; outside those provisos (deleting time 0, or
the last-node in-place overwrite with a small or duplicate time) the
invariant can break, as the counterexample shows. -/
theorem C3_amended_invariant_preservation :
    (∀ name, TrackInv (Track.new name)) ∧
    (∀ (tr : Track) (node : Node) (e : Option String) (tr' : Track),
      TrackInv tr → tr.add_node node = some (e, tr') → TrackInv tr') ∧
    (∀ (tr : Track) (t : Nat) (e : Option String) (tr' : Track),
      TrackInv tr → t ≠ 0 → tr.del_node_at t = (e, tr') → TrackInv tr') ∧
    (∀ (tr : Track) (t : Nat) (node : Node) (e : Option String) (tr' : Track),
      TrackInv tr →
      (t = node.time ∨
        (t ≠ 0 ∧ node.time ≠ 0 ∧ ∀ m ∈ tr.nodes, m.time = t ∨ m.time < node.time)) →
      tr.update_node_at t node = some (e, tr') → TrackInv tr') := by
  refine ⟨?_, ?_, ?_, ?_⟩
  · intro name
    exact ⟨List.pairwise_singleton _ _, rfl⟩
  · intro tr node e tr' hinv hadd
    obtain ⟨n0, rest, hl, h00, hp⟩ := trackInv_destruct tr hinv
    by_cases hz : node.time = 0
    · rw [add_node_zero tr node hz] at hadd
      obtain ⟨-, rfl⟩ : some zeroTimeErr = e ∧ tr = tr' := by
        simpa using hadd
      exact hinv
    · have hlt : n0.time < node.time := by
        rw [h00]; exact Nat.pos_of_ne_zero hz
      by_cases hdup : ∃ n ∈ rest, n.time = node.time
      · rw [add_node_dup tr node n0 rest hl hp hlt hdup] at hadd
        obtain ⟨-, rfl⟩ : some duplicateTimeErr = e ∧ tr = tr' := by
          simpa using hadd
        exact hinv
      · obtain ⟨nodes', hok, hp', hhd', -⟩ := add_node_ok tr node n0 rest hl hp hlt
          (fun n hn hna => hdup ⟨n, hn, hna⟩)
        rw [hok] at hadd
        obtain ⟨-, rfl⟩ : Option.none = e ∧ ({ tr with nodes := nodes' } : Track) = tr' := by
          simpa using hadd
        refine ⟨hp', ?_⟩
        show (nodes'.map Node.time).head? = some 0
        rw [List.head?_map, hhd']
        simp [h00]
  · intro tr t e tr' hinv ht0 hdel
    obtain ⟨n0, rest, hl, h00, hp⟩ := trackInv_destruct tr hinv
    have htr' : tr' = (tr.del_node_at t).2 := by rw [hdel]
    subst htr'
    refine ⟨del_node_at_sorted tr t hp, ?_⟩
    have hhd := del_node_at_head tr t n0 rest hl (by rw [h00]; exact fun hh => ht0 hh.symm)
    show ((tr.del_node_at t).2.nodes.map Node.time).head? = some 0
    rw [List.head?_map, hhd]
    simp [h00]
  · intro tr t node e tr' hinv hcond hupd
    obtain ⟨e2, tr2, hupd2, hinv2⟩ := update_node_at_inv tr t node hinv hcond
    rw [hupd2] at hupd
    obtain ⟨-, rfl⟩ : e2 = e ∧ tr2 = tr' := by simpa using hupd
    exact hinv2

/-- C3 witness: the preservation statements applied to concrete inputs —
adding time 7 to a fresh track, deleting time 7 again, and updating the
node at time 7 in place. -/
theorem C3_amended_invariant_preservation_witness :
    TrackInv ({ nodes := [Node.new 0 0 InterpType.none, Node.new 7 1 InterpType.linear],
                name := "w" } : Track) ∧
    TrackInv ({ nodes := [Node.new 0 0 InterpType.none], name := "w" } : Track) ∧
    TrackInv ({ nodes := [Node.new 0 0 InterpType.none, Node.new 7 2 InterpType.none],
                name := "w" } : Track) :=
  ⟨C3_amended_invariant_preservation.2.1 (Track.new "w") (Node.new 7 1 InterpType.linear)
      Option.none _ (by decide) (by decide),
   C3_amended_invariant_preservation.2.2.1
      ({ nodes := [Node.new 0 0 InterpType.none, Node.new 7 1 InterpType.linear],
         name := "w" } : Track)
      7 Option.none _ (by decide) (by decide) (by decide),
   C3_amended_invariant_preservation.2.2.2
      ({ nodes := [Node.new 0 0 InterpType.none, Node.new 7 1 InterpType.linear],
         name := "w" } : Track)
      7 (Node.new 7 2 InterpType.none) Option.none _ (by decide) (Or.inl (by decide))
      (by decide)⟩

/-- C4: evaluating `update_node_at` at the failing input. On the track
[(0,0),(10,1),(20,2)], moving the node at time 10 to the occupied time
20 (or to the forbidden time 0) deletes the node at 10, fails to
re-insert, and still returns the success signal `None` — the mutation is
neither all-or-nothing nor signalled as an error. -/
theorem C4_update_not_atomic :
    (Track.update_node_at { nodes := [Node.new 0 0 InterpType.none,
        Node.new 10 1 InterpType.none, Node.new 20 2 InterpType.none], name := "x" }
        10 (Node.new 20 5 InterpType.none) =
      some (Option.none, { nodes := [Node.new 0 0 InterpType.none,
        Node.new 20 2 InterpType.none], name := "x" })) ∧
    (Track.update_node_at { nodes := [Node.new 0 0 InterpType.none,
        Node.new 10 1 InterpType.none, Node.new 20 2 InterpType.none], name := "x" }
        10 (Node.new 0 5 InterpType.none) =
      some (Option.none, { nodes := [Node.new 0 0 InterpType.none,
        Node.new 20 2 InterpType.none], name := "x" })) :=
  ⟨rfl, rfl⟩

/-- C5 counterexample: on the strictly increasing track [(5,_),(10,_)]
(reachable by deleting the time-0 node), adding a node at the stored
time 5 succeeds and appends a duplicate instead of failing with the
duplicate-time error, and adding time 3 appends out of order. -/
theorem C5_counterexample :
    TimeSorted [Node.new 5 0 InterpType.none, Node.new 10 0 InterpType.none] ∧
    (Track.add_node { nodes := [Node.new 5 0 InterpType.none,
        Node.new 10 0 InterpType.none], name := "x" } (Node.new 5 1 InterpType.none) =
      some (Option.none, { nodes := [Node.new 5 0 InterpType.none,
        Node.new 10 0 InterpType.none, Node.new 5 1 InterpType.none], name := "x" })) ∧
    (Track.add_node { nodes := [Node.new 5 0 InterpType.none,
        Node.new 10 0 InterpType.none], name := "x" } (Node.new 3 1 InterpType.none) =
      some (Option.none, { nodes := [Node.new 5 0 InterpType.none,
        Node.new 10 0 InterpType.none, Node.new 3 1 InterpType.none], name := "x" })) ∧
    ¬ TimeSorted [Node.new 5 0 InterpType.none, Node.new 10 0 InterpType.none,
      Node.new 3 1 InterpType.none] := by
  refine ⟨by decide, rfl, rfl, by decide⟩

/-- C5 (amended): on a strictly increasing track whose first node is the
synthetic time-0 node, add_node with a fresh positive time succeeds and
keeps the sequence strictly increasing (count grows by one), and
add_node with a positive stored time fails with the duplicate-time error
leaving the track unchanged. -/
theorem C5_amended_add_node :
    ∀ (tr : Track) (node : Node),
      TrackInv tr → 0 < node.time →
      ((node.time ∉ tr.nodes.map Node.time →
          ∃ tr', tr.add_node node = some (Option.none, tr') ∧ TimeSorted tr'.nodes ∧
            tr'.nodes.length = tr.nodes.length + 1) ∧
       (node.time ∈ tr.nodes.map Node.time →
          tr.add_node node = some (some duplicateTimeErr, tr))) := by
  intro tr node hinv hpos
  obtain ⟨n0, rest, hl, h00, hp⟩ := trackInv_destruct tr hinv
  have hlt : n0.time < node.time := by rw [h00]; exact hpos
  constructor
  · intro hnotin
    have hnd : ∀ n ∈ rest, n.time ≠ node.time := by
      intro n hn hna
      apply hnotin
      rw [hl]
      exact hna ▸ List.mem_map_of_mem Node.time (List.mem_cons_of_mem n0 hn)
    obtain ⟨nodes', hok, hp', -, hlen⟩ := add_node_ok tr node n0 rest hl hp hlt hnd
    exact ⟨{ tr with nodes := nodes' }, hok, hp', hlen⟩
  · intro hin
    rw [hl] at hin
    simp only [List.map_cons, List.mem_cons] at hin
    rcases hin with h0 | hin
    · rw [h00] at h0; omega
    · obtain ⟨n, hn, hna⟩ := List.mem_map.mp hin
      exact add_node_dup tr node n0 rest hl hp hlt ⟨n, hn, hna⟩

/-- C5 witness: the amended statement applied to the track
[(0,0),(10,1)] — duplicate insertion at time 10 is rejected with the
duplicate error, leaving the track unchanged. -/
theorem C5_amended_add_node_witness :
    Track.add_node { nodes := [Node.new 0 0 InterpType.none,
        Node.new 10 1 InterpType.none], name := "w" } (Node.new 10 3 InterpType.none) =
      some (some duplicateTimeErr, { nodes := [Node.new 0 0 InterpType.none,
        Node.new 10 1 InterpType.none], name := "w" }) :=
  (C5_amended_add_node
    ({ nodes := [Node.new 0 0 InterpType.none, Node.new 10 1 InterpType.none],
       name := "w" } : Track)
    (Node.new 10 3 InterpType.none) (by decide) (by decide)).2 (by decide)

/-- C6 counterexample: `del_node_at(0)` on a fresh track succeeds and
removes the synthetic time-0 node, leaving the node sequence empty. -/
theorem C6_counterexample :
    (Track.new "x").del_node_at 0 = (Option.none, { nodes := [], name := "x" }) := rfl

/-- C6 (amended): the time-0 node is removable by the normal deletion
path and the track can become empty (see the counterexample); what does
hold is: a fresh track is nonempty, add_node and update_node_at preserve
nonemptiness, and del_node_at leaves the track nonempty whenever at
least two nodes are stored. -/
theorem C6_amended_nonempty :
    (∀ name, (Track.new name).nodes ≠ []) ∧
    (∀ (tr : Track) (node : Node) (e : Option String) (tr' : Track),
      tr.add_node node = some (e, tr') → tr.nodes ≠ [] → tr'.nodes ≠ []) ∧
    (∀ (tr : Track) (t : Nat) (node : Node) (e : Option String) (tr' : Track),
      tr.update_node_at t node = some (e, tr') → tr.nodes ≠ [] → tr'.nodes ≠ []) ∧
    (∀ (tr : Track) (t : Nat), 2 ≤ tr.nodes.length → (tr.del_node_at t).2.nodes ≠ []) := by
  refine ⟨?_, ?_, ?_, ?_⟩
  · intro name habs
    cases habs
  · exact add_node_ne_nil
  · exact update_node_at_ne_nil
  · exact del_node_at_ne_nil

/-- C6 witness: the preservation statements applied to concrete inputs —
adding to a fresh track, updating it, and deleting time 0 from a
two-node track all leave a nonempty node sequence. -/
theorem C6_amended_nonempty_witness :
    ({ nodes := [Node.new 0 0 InterpType.none, Node.new 4 1 InterpType.none],
       name := "w" } : Track).nodes ≠ [] ∧
    ({ nodes := [Node.new 0 3 InterpType.none], name := "w" } : Track).nodes ≠ [] ∧
    (Track.del_node_at { nodes := [Node.new 0 0 InterpType.none,
        Node.new 4 1 InterpType.none], name := "w" } 0).2.nodes ≠ [] :=
  ⟨C6_amended_nonempty.2.1 (Track.new "w") (Node.new 4 1 InterpType.none) Option.none _
      (by decide) (by decide),
   C6_amended_nonempty.2.2.1 (Track.new "w") 0 (Node.new 0 3 InterpType.none) Option.none _
      (by decide) (by decide),
   C6_amended_nonempty.2.2.2
      ({ nodes := [Node.new 0 0 InterpType.none, Node.new 4 1 InterpType.none],
         name := "w" } : Track)
      0 (by decide)⟩

/-- C7: a fresh track holds exactly the single node (time 0, value 0,
interpolation None), and add_node with time 0 always fails with the
zero-time error, leaving the track unchanged. -/
theorem C7_fresh_track_and_zero_time :
    (∀ name, (Track.new name).nodes = [Node.new 0 0 InterpType.none]) ∧
    (∀ (tr : Track) (node : Node), node.time = 0 →
      tr.add_node node = some (some zeroTimeErr, tr)) :=
  ⟨fun _name => rfl, add_node_zero⟩

/-- C7 witness: inserting a node at time 0 into a fresh track fails with
the zero-time error. -/
theorem C7_fresh_track_and_zero_time_witness :
    (Track.new "w").add_node (Node.new 0 3 InterpType.linear) =
      some (some zeroTimeErr, Track.new "w") :=
  C7_fresh_track_and_zero_time.2 (Track.new "w") (Node.new 0 3 InterpType.linear) rfl

/-- C8 counterexample: a reachable timeline holding a NaN-valued node
(values are never inspected by the mutation paths) saves successfully —
`serde_json` prints the non-finite value as `null` — but loading the
saved document fails, because `null` does not deserialize as `f64`. So
save succeeds while load(save(T)) does not reproduce T. -/
theorem C8_roundtrip_counterexample :
    (TimelineF.save { tracks := [("camera.x",
        { nodes := [{ time := 10, value := F64.nan, interp := InterpType.linear }],
          name := "camera.x" })] } =
      Except.ok (Json.obj [("tracks", Json.obj [("camera.x",
        Json.obj [("nodes", Json.arr [Json.obj [("time", Json.num 10),
            ("value", Json.null), ("interp", Json.str "Linear")]]),
          ("name", Json.str "camera.x")])])])) ∧
    ((TimelineF.save { tracks := [("camera.x",
        { nodes := [{ time := 10, value := F64.nan, interp := InterpType.linear }],
          name := "camera.x" })] }).bind TimelineF.load =
      Except.error "Failed to load timeline.") :=
  ⟨rfl, rfl⟩

/-- C8 (amended): for every timeline all of whose node values are
finite doubles (node times are representable `u32` values by typing),
save succeeds and load(save(T)) reproduces the timeline exactly — same
track names, same (time, value, interpolation) triples in the same
order. With a non-finite node value, save still succeeds but the round
trip fails, as the counterexample shows. -/
theorem C8_amended_finite_roundtrip (tl : TimelineF)
    (h : ∀ p ∈ tl.tracks, ∀ n ∈ p.2.nodes, n.time < 4294967296 ∧ n.value.IsFinite) :
    (TimelineF.save tl).bind TimelineF.load = Except.ok tl := by
  have hfj : TimelineF.fromJson tl.toJson = some tl := by
    show ((tl.tracks.map (fun p => (p.1, TrackF.toJson p.2))).mapM
        (fun p => (TrackF.fromJson p.2).map (fun tr => (p.1, tr)))).bind
      (fun tracks => some { tracks := tracks }) = some tl
    rw [tracksF_mapM_roundtrip tl.tracks h]
    rfl
  show TimelineF.load tl.toJson = Except.ok tl
  unfold TimelineF.load
  rw [hfj]

/-- C8 witness: the amended round trip on a concrete two-track,
finite-valued timeline. -/
theorem C8_amended_finite_roundtrip_witness :
    (TimelineF.save { tracks := [
      ("camera.x",
        { nodes := [
            { time := 0, value := F64.finite 0, interp := InterpType.none },
            { time := 10, value := F64.finite 1, interp := InterpType.linear }],
          name := "camera.x" }),
      ("camera.y",
        { nodes := [
            { time := 0, value := F64.finite 0, interp := InterpType.none },
            { time := 20, value := F64.finite 4, interp := InterpType.linear }],
          name := "camera.y" })] }).bind TimelineF.load =
      Except.ok { tracks := [
        ("camera.x",
          { nodes := [
              { time := 0, value := F64.finite 0, interp := InterpType.none },
              { time := 10, value := F64.finite 1, interp := InterpType.linear }],
            name := "camera.x" }),
        ("camera.y",
          { nodes := [
              { time := 0, value := F64.finite 0, interp := InterpType.none },
              { time := 20, value := F64.finite 4, interp := InterpType.linear }],
            name := "camera.y" })] } :=
  C8_amended_finite_roundtrip _ (by decide)

/-- C9 counterexample: the four named boundary functions dereference a
null first handle (modelled as the `fault` outcome) instead of no-oping
or returning a neutral failure value. -/
theorem C9_counterexample :
    ffi.demy_tl_track_get Option.none (some "camera") = CResult.fault ∧
    ffi.demy_tr_add_node Option.none 10 1 InterpType.none = CResult.fault ∧
    ffi.demy_tr_del_node Option.none 10 = CResult.fault ∧
    ffi.demy_tr_get_node Option.none 10 = CResult.fault :=
  ⟨rfl, rfl, rfl, rfl⟩

/-- C9 (amended): the boundary functions with explicit null checks
(node accessors/mutators, frees, iterator equality) do no-op or return a
neutral value on a null handle, but `demy_tl_track_get`,
`demy_tr_add_node`, `demy_tr_del_node` and `demy_tr_get_node` have no
null check and fault on a null first argument. -/
theorem C9_amended_null_handling :
    (∀ v, ffi.demy_node_set_value Option.none v = CResult.ok Option.none) ∧
    ffi.demy_node_get_value Option.none = CResult.ok 0 ∧
    ffi.demy_node_get_time Option.none = CResult.ok 0 ∧
    ffi.demy_node_get_interp Option.none = CResult.ok InterpType.none ∧
    ffi.demy_node_free Option.none = CResult.ok false ∧
    (∀ b, ffi.demy_tr_iter_are_eq Option.none b = CResult.ok false) ∧
    (∀ a, ffi.demy_tr_iter_are_eq a Option.none = CResult.ok false) ∧
    (∀ name, ffi.demy_tl_track_get Option.none (some name) = CResult.fault) ∧
    (∀ time value interp,
      ffi.demy_tr_add_node Option.none time value interp = CResult.fault) ∧
    (∀ time, ffi.demy_tr_del_node Option.none time = CResult.fault) ∧
    (∀ time, ffi.demy_tr_get_node Option.none time = CResult.fault) := by
  refine ⟨fun v => rfl, rfl, rfl, rfl, rfl, fun b => ?_, fun a => ?_, fun name => rfl,
    fun time value interp => rfl, fun time => rfl, fun time => rfl⟩
  · cases b <;> rfl
  · cases a <;> rfl

/-- C10: `load` performs no re-validation of the data-model invariants:
a well-formed document yields a track with an empty node list (hence no
time-0 node), and another yields duplicate times (not strictly
increasing) with no time-0 node. -/
theorem C10_load_no_revalidation :
    (Timeline.load (Json.obj [("tracks", Json.obj [("x",
        Json.obj [("nodes", Json.arr []), ("name", Json.str "x")])])]) =
      Except.ok { tracks := [("x", { nodes := [], name := "x" })] }) ∧
    (Timeline.load (Json.obj [("tracks", Json.obj [("x",
        Json.obj [("nodes", Json.arr [
          Json.obj [("time", Json.num 5), ("value", Json.num 0), ("interp", Json.str "None")],
          Json.obj [("time", Json.num 5), ("value", Json.num 1), ("interp", Json.str "None")]]),
        ("name", Json.str "x")])])]) =
      Except.ok { tracks := [("x", { nodes := [Node.new 5 0 InterpType.none,
        Node.new 5 1 InterpType.none], name := "x" })] }) ∧
    ¬ TimeSorted [Node.new 5 0 InterpType.none, Node.new 5 1 InterpType.none] ∧
    (∀ n ∈ [Node.new 5 0 InterpType.none, Node.new 5 1 InterpType.none], n.time ≠ 0) := by
  refine ⟨rfl, rfl, by decide, by decide⟩

end Demy
